import Mathlib

/-!
Verification of the research-paper summarization pipeline (`main.py` / `app.py`).

The pipeline's text-processing core is embedded shallowly:

* `sent_tokenize` (NLTK, external) is abstracted: functions that call it on raw
  text take the resulting sentence list (`List String`) as input instead.
* Python's `str.split()` (whitespace split, empty pieces dropped) is embedded as
  `pwords` on `List Char`; `str.strip()` is `pystrip`.
* The Groq API call is abstracted as a `String → Except String String` parameter.
* The two regular expressions of `extract_links_and_data` are embedded as
  specialized scanners (`tryURL` / `tryNum`) together with `re.findall`'s
  left-to-right, non-overlapping scan (`scanURLsF` / `scanNumsF`).

Every definition is executable so the theorems can be checked on concrete data.
-/

/-- Python `str.split()` worker: accumulates the current word (reversed) while
walking the character list, flushing it at whitespace; empty pieces are never
produced. -/
def pwordsAux : List Char → List Char → List (List Char)
  | cur, [] => if cur = [] then [] else [cur.reverse]
  | cur, c :: cs =>
    if c.isWhitespace then
      if cur = [] then pwordsAux [] cs else cur.reverse :: pwordsAux [] cs
    else pwordsAux (c :: cur) cs

/-- Python `str.split()` on a character list: the list of whitespace-separated
words, with empty pieces dropped. -/
def pwords (l : List Char) : List (List Char) := pwordsAux [] l

/-- Word count of a string, i.e. Python `len(s.split())`; this is what both
`chunk_text` and `generate_short_summary` use as their token measure. -/
def wc (s : String) : Nat := (pwords s.data).length

/-- Python `str.strip()` on a character list: drop leading and trailing
whitespace. -/
def pystrip (l : List Char) : List Char :=
  ((l.dropWhile Char.isWhitespace).reverse.dropWhile Char.isWhitespace).reverse

/-- Python `str.strip()` on a string. -/
def pystripS (s : String) : String := String.mk (pystrip s.data)

/-- Loop body of `chunk_text` (main.py lines 141-152, app.py lines 55-67),
written as structural recursion over the remaining sentences.  The state is the
accumulated chunk list, the running chunk string `current_chunk`, and
`current_tokens`.  Alongside each chunk string we keep the list of sentences
that went into it (the chunk's sentence sequence), which the source only keeps
implicitly inside the string. -/
def chunkGo (max_tokens : Nat) (chunks : List (String × List String))
    (current_chunk : String) (current_group : List String)
    (current_tokens : Nat) : List String → List (String × List String)
  | [] => if current_chunk = "" then chunks else chunks ++ [(current_chunk, current_group)]
  | sent :: rest =>
    if max_tokens < current_tokens + wc sent then
      chunkGo max_tokens (chunks ++ [(current_chunk, current_group)]) sent [sent] (wc sent) rest
    else
      chunkGo max_tokens chunks (current_chunk ++ " " ++ sent)
        (current_group ++ [sent]) (current_tokens + wc sent) rest

/-- `chunk_text` of main.py/app.py, with each chunk paired with its sentence
sequence.  Input is the output of `sent_tokenize(text)`. -/
def chunk_text_full (sentences : List String) (max_tokens : Nat) :
    List (String × List String) :=
  chunkGo max_tokens [] "" [] 0 sentences

/-- `chunk_text(text, max_tokens)` of main.py lines 127-154 / app.py lines
48-69: the returned chunk strings. -/
def chunk_text (sentences : List String) (max_tokens : Nat) : List String :=
  (chunk_text_full sentences max_tokens).map Prod.fst

/-- Modelled from the spec: the reference greedy chunking algorithm of §4.1 —
accumulate sentences into a running chunk while adding the next sentence does
not exceed the budget; when it would exceed, emit the running chunk and start a
new chunk containing exactly that next sentence; finally emit the nonempty
running chunk.  Chunks are given as sentence sequences. -/
def greedyChunks (max_tokens : Nat) (current : List String) (current_tokens : Nat) :
    List String → List (List String)
  | [] => if current = [] then [] else [current]
  | sent :: rest =>
    if max_tokens < current_tokens + wc sent then
      current :: greedyChunks max_tokens [sent] (wc sent) rest
    else
      greedyChunks max_tokens (current ++ [sent]) (current_tokens + wc sent) rest

/-- Substring containment, Python's `kw in s` on character lists: some suffix
of `s` starts with `kw`. -/
def containsSub (kw : List Char) : List Char → Bool
  | [] => kw.isEmpty
  | c :: cs => kw.isPrefixOf (c :: cs) || containsSub kw cs

/-- The keyword list the code imports from `info.py`; its contents are recorded
verbatim in the module docstring of main.py (lines 14-55). -/
def KEYWORDS : List String :=
  ["lithium mining", "cobalt mining", "nickel mining", "rare earth metals",
   "excessive mining", "toxic chemicals", "hazardous waste", "battery waste",
   "battery disposal", "battery leakage", "metal toxicity", "water pollution",
   "soil degradation", "air pollution", "noise pollution",
   "carbon footprint", "coal-based electricity", "emissions from power generation",
   "fossil fuel dependency", "non-renewable energy dependency", "charging station emissions",
   "recycling inefficiency", "recycling challenges", "battery recalls",
   "child labor", "ethical concerns", "displacement of local communities", "supply chain issues",
   "charging infrastructure", "grid strain", "grid instability", "electricity shortages",
   "power outages", "transformer aging", "local power cuts", "energy storage inefficiency",
   "limited range", "charging time delays", "limited charging cycles", "battery degradation",
   "battery failure", "thermal runaway", "overheating", "thermal issues", "fire hazard",
   "battery overheating incidents", "battery explosion", "driving risks", "accident severity",
   "cold weather inefficiency", "extreme heat issues", "durability issues",
   "battery lifespan concerns", "maintenance challenges", "high repair costs",
   "high maintenance costs", "high costs", "insurance risks", "infrastructure challenges",
   "installation costs", "operational costs", "battery replacement cost",
   "electromagnetic interference", "circuit damage", "charging station availability",
   "emissions displacement", "mining ecosystem damage", "local water depletion",
   "air quality impact", "load balancing problems", "power plant capacity stress",
   "transformer failure risks", "transmission losses", "emergency backup capacity issues",
   "grid load forecasting challenges"]

/-- The sentence filter of `generate_short_summary`:
`any(kw in sent.lower() for kw in KEYWORDS)`.  Python's `str.lower()` is
modelled as lowercasing every character. -/
def kwMatch (sent : String) : Bool :=
  KEYWORDS.any (fun kw => containsSub kw.data (sent.data.map Char.toLower))

/-- `ev_sentences` of `generate_short_summary` (main.py line 201 / app.py line
97): the keyword-matching sentences in original order. -/
def ev_sentences (sentences : List String) : List String :=
  sentences.filter kwMatch

/-- Loop of `generate_short_summary` (main.py lines 204-210, app.py lines
102-108): greedily append whole sentences (plus a trailing space) while the
running word count stays within `max_length`; `break` on the first sentence
that would exceed it.  Alongside the summary string we keep the list of
sentences appended so far. -/
def shortGo (max_length : Nat) (short_summary : String) (selected : List String)
    (current_length : Nat) : List String → String × List String
  | [] => (short_summary, selected)
  | sent :: rest =>
    if current_length + wc sent ≤ max_length then
      shortGo max_length (short_summary ++ sent ++ " ") (selected ++ [sent])
        (current_length + wc sent) rest
    else (short_summary, selected)

/-- `generate_short_summary(text, max_length)` of main.py lines 189-212 /
app.py lines 94-110, with the list of included sentences kept alongside the
returned string.  Input is the output of `sent_tokenize(text)`. -/
def short_summary_full (sentences : List String) (max_length : Nat) :
    String × List String :=
  let r := shortGo max_length "" [] 0 (ev_sentences sentences)
  (pystripS r.1, r.2)

/-- `generate_short_summary`: the string the source function returns. -/
def generate_short_summary (sentences : List String) (max_length : Nat) : String :=
  (short_summary_full sentences max_length).1

/-- Concatenation `s1 ++ " " ++ s2 ++ " " ++ ...` with one trailing space per
sentence, exactly what the `short_summary += sent + " "` loop builds. -/
def joinSp : List String → String
  | [] => ""
  | s :: rest => s ++ " " ++ joinSp rest

/-- Total word count of a list of sentences. -/
def wcSum (l : List String) : Nat := (l.map wc).sum

/-- The prompt template of `summarize_with_groq` (main.py lines 168-173). -/
def mkPrompt (text context : String) : String :=
  "Summarize the following research paper content. Context: " ++ context ++
  ". Use only the information from the text and avoid generalizations. " ++
  "Include any links, data, or proofs mentioned in the content.\n\nText:\n" ++
  text ++ "\n\n"

/-- `summarize_with_groq(text, context)` of main.py lines 157-186 / app.py
lines 72-91.  The remote chat-completion call is abstracted as `call`; a
successful call returns the model output (`Except.ok`), any raised exception is
`Except.error`.  On success the code returns the stripped content, on any
exception the fixed placeholder string. -/
def summarize_with_groq (call : String → Except String String)
    (text context : String) : String :=
  match call (mkPrompt text context) with
  | Except.ok content => pystripS content
  | Except.error _ => "Failed to summarize due to API error."

/-- Attempt of the URL pattern `https?://[^\s]+` after a fixed scheme has
matched: greedily take the nonempty run of non-whitespace characters.  Returns
the full match and the remaining input, or `none` when `[^\s]+` cannot match. -/
def grabURL (scheme r2 : List Char) : Option (List Char × List Char) :=
  let core := r2.takeWhile (fun c => !c.isWhitespace)
  if core = [] then none
  else some (scheme ++ core, r2.dropWhile (fun c => !c.isWhitespace))

/-- Match attempt of the regex `(https?://[^\s]+)` at the head of the input.
The optional `s` is tried greedily first, exactly as the regex engine does;
when it is absent the `://` must follow `http` directly.  (When `https://` is
present but no non-whitespace character follows, backtracking to the
`s`-less alternative also fails, since `:` would have to match `s`.) -/
def tryURL : List Char → Option (List Char × List Char)
  | 'h' :: 't' :: 't' :: 'p' :: rest =>
    match rest with
    | 's' :: ':' :: '/' :: '/' :: r2 =>
      grabURL ('h' :: 't' :: 't' :: 'p' :: 's' :: ':' :: '/' :: '/' :: []) r2
    | ':' :: '/' :: '/' :: r2 =>
      grabURL ('h' :: 't' :: 't' :: 'p' :: ':' :: '/' :: '/' :: []) r2
    | _ => none
  | _ => none

/-- The `re.findall` scan for the URL regex: try a match at every position from
left to right; on success emit the match and continue right after it, otherwise
advance one character.  `fuel` bounds the recursion; `fuel = length` is enough
since every step consumes at least one character. -/
def scanURLsF : Nat → List Char → List (List Char)
  | 0, _ => []
  | _ + 1, [] => []
  | fuel + 1, c :: cs =>
    match tryURL (c :: cs) with
    | some (m, rest) => m :: scanURLsF fuel rest
    | none => scanURLsF fuel cs

/-- The `urls` component of `extract_links_and_data` (main.py line 112 /
app.py line 33): `re.findall(r'(https?://[^\s]+)', text)`.  The single capture
group spans the whole match, so `findall` returns the full matched substrings. -/
def extract_urls (text : String) : List String :=
  (scanURLsF text.data.length text.data).map String.mk

/-- Python `\w` (ASCII): letter, digit or underscore; used for the word
boundary `\b`. -/
def isWordChar (c : Char) : Bool := c.isAlphanum || c == '_'

/-- Word boundary `\b` after a word character: holds when the remaining input
is empty or starts with a non-word character. -/
def boundaryOK : List Char → Bool
  | [] => true
  | c :: _ => !isWordChar c

/-- Match attempt of the regex `\b\d+(\.\d+)?\b` at the head of the input;
`pnw` records whether the previous character is absent or a non-word character
(the `\b` before the digits).  Returns `(full match, capture of group 1,
remaining input)`.  The digit runs are maximal; when the trailing `\b` fails
after the optional group, shrinking the group's digits cannot help (the next
character would be a digit, a word character), so the engine drops the group
and matches the integer part alone — the character after it is `.`, a non-word
character, so that always succeeds. -/
def tryNum (pnw : Bool) : List Char → Option (List Char × List Char × List Char)
  | c :: cs =>
    if pnw && c.isDigit then
      let dInt := (c :: cs).takeWhile Char.isDigit
      let r1 := (c :: cs).dropWhile Char.isDigit
      match r1 with
      | '.' :: r2 =>
        match r2 with
        | d :: _ =>
          if d.isDigit then
            let dFrac := r2.takeWhile Char.isDigit
            let r3 := r2.dropWhile Char.isDigit
            if boundaryOK r3 then some (dInt ++ '.' :: dFrac, '.' :: dFrac, r3)
            else some (dInt, [], r1)
          else some (dInt, [], r1)
        | [] => some (dInt, [], r1)
      | _ => if boundaryOK r1 then some (dInt, [], r1) else none
    else none
  | [] => none

/-- The `re.findall` scan for the number regex, emitting `(match, group 1)`
pairs; an unmatched optional group is the empty string.  After a match the
previous character is a digit, hence a word character. -/
def scanNumsF : Nat → Bool → List Char → List (List Char × List Char)
  | 0, _, _ => []
  | _ + 1, _, [] => []
  | fuel + 1, pnw, c :: cs =>
    match tryNum pnw (c :: cs) with
    | some (m, g, rest) => (m, g) :: scanNumsF fuel false rest
    | none => scanNumsF fuel (!isWordChar c) cs

/-- The `data_points` component of `extract_links_and_data` (main.py lines
114-120 / app.py lines 35-41): for each sentence and each `findall` result of
`\b\d+(\.\d+)?\b` in it, the entry `f"{num} -> {sentence.strip()}"`.  Since the
pattern has exactly one capture group, Python's `findall` returns the group-1
capture, not the full match, so `num` is the fractional part (or the empty
string for an integer). -/
def extract_data_points (sentences : List String) : List String :=
  (sentences.map (fun sentence =>
    (scanNumsF sentence.data.length true sentence.data).map
      (fun p => String.mk p.2 ++ " -> " ++ pystripS sentence))).flatten

/-- Word-count condition of claim C2 for one chunk: the chunk's word count is
within the budget, or the chunk is exactly one oversized sentence. -/
def chunkP (mt : Nat) (p : String × List String) : Prop :=
  wc p.1 ≤ mt ∨ ∃ s, p.2 = [s] ∧ p.1 = s ∧ mt < wc s

/-- Correctness of a left-to-right, non-overlapping `findall` run: each
reported match occurs verbatim at a position strictly after the previous
match's end, no match of the pattern begins inside any of the gaps between
reported matches (or after the last one), and the matches appear in order of
occurrence. -/
def ScanOK : List Char → List (List Char) → Prop
  | l, [] => ∀ a b, l = a ++ b → tryURL b = none
  | l, u :: us => ∃ a b, l = a ++ u ++ b ∧
      (∀ a1 a2, a = a1 ++ a2 → a2 ≠ [] → tryURL (a2 ++ u ++ b) = none) ∧
      ScanOK b us

/-! ## Lemmas about the word splitter -/

theorem pwordsAux_ws_append (sep : Char) (hsep : sep.isWhitespace = true) :
    ∀ (a cur b : List Char),
      pwordsAux cur (a ++ sep :: b) = pwordsAux cur a ++ pwordsAux [] b := by
  intro a
  induction a with
  | nil =>
    intro cur b
    by_cases h : cur = [] <;> simp [pwordsAux, hsep, h]
  | cons c a ih =>
    intro cur b
    by_cases hw : c.isWhitespace
    · by_cases hc : cur = [] <;> simp [pwordsAux, hw, hc, ih]
    · simp [pwordsAux, hw, ih]

theorem pwordsAux_all_ws (t : List Char) (h : ∀ c ∈ t, c.isWhitespace = true) :
    ∀ cur, pwordsAux cur t = pwordsAux cur [] := by
  induction t with
  | nil => intro cur; rfl
  | cons c t ih =>
    intro cur
    have hc : c.isWhitespace = true := h c (by simp)
    have ih' := ih (fun x hx => h x (by simp [hx]))
    by_cases hcur : cur = [] <;> simp [pwordsAux, hc, hcur, ih']

theorem pwordsAux_append_ws (t : List Char) (ht : ∀ c ∈ t, c.isWhitespace = true) :
    ∀ (a cur : List Char), pwordsAux cur (a ++ t) = pwordsAux cur a := by
  intro a
  induction a with
  | nil => intro cur; exact pwordsAux_all_ws t ht cur
  | cons c a ih =>
    intro cur
    by_cases hw : c.isWhitespace
    · by_cases hc : cur = [] <;> simp [pwordsAux, hw, hc, ih]
    · simp [pwordsAux, hw, ih]

theorem pwordsAux_ws_front (f : List Char) (hf : ∀ c ∈ f, c.isWhitespace = true) :
    ∀ r, pwordsAux [] (f ++ r) = pwordsAux [] r := by
  induction f with
  | nil => intro r; rfl
  | cons c f ih =>
    intro r
    have hc : c.isWhitespace = true := hf c (by simp)
    simp [pwordsAux, hc, ih (fun x hx => hf x (by simp [hx]))]

theorem pwords_pystrip (l : List Char) : pwords (pystrip l) = pwords l := by
  have hfront : pwords l = pwords (l.dropWhile Char.isWhitespace) := by
    conv_lhs => rw [← List.takeWhile_append_dropWhile Char.isWhitespace l]
    exact pwordsAux_ws_front _ (fun c hc => List.mem_takeWhile_imp hc) _
  have hback : l.dropWhile Char.isWhitespace =
      pystrip l ++ ((l.dropWhile Char.isWhitespace).reverse.takeWhile Char.isWhitespace).reverse := by
    conv_lhs => rw [← List.reverse_reverse (l.dropWhile Char.isWhitespace),
      ← List.takeWhile_append_dropWhile Char.isWhitespace (l.dropWhile Char.isWhitespace).reverse]
    rw [List.reverse_append]
    rfl
  have hws : ∀ c ∈ ((l.dropWhile Char.isWhitespace).reverse.takeWhile Char.isWhitespace).reverse,
      c.isWhitespace = true :=
    fun c hc => List.mem_takeWhile_imp (List.mem_reverse.mp hc)
  calc pwords (pystrip l)
      = pwords (pystrip l ++
          ((l.dropWhile Char.isWhitespace).reverse.takeWhile Char.isWhitespace).reverse) :=
        (pwordsAux_append_ws _ hws _ _).symm
    _ = pwords (l.dropWhile Char.isWhitespace) := by rw [← hback]
    _ = pwords l := hfront.symm

theorem data_append_space (a b : String) :
    (a ++ " " ++ b).data = a.data ++ ' ' :: b.data := by
  simp [String.data_append]

theorem wc_append_space (a b : String) : wc (a ++ " " ++ b) = wc a + wc b := by
  unfold wc pwords
  rw [data_append_space, pwordsAux_ws_append ' ' (by decide)]
  simp

theorem wc_pystripS (s : String) : wc (pystripS s) = wc s := by
  unfold wc pystripS
  exact congrArg List.length (pwords_pystrip s.data)

theorem append_space_ne_empty (a b : String) : a ++ " " ++ b ≠ "" := by
  intro h
  have : (a ++ " " ++ b).data = ("" : String).data := by rw [h]
  rw [data_append_space] at this
  simp at this

/-! ## Lemmas about the chunker -/

theorem chunkGo_flatten (mt : Nat) :
    ∀ (sents : List String) (chunks : List (String × List String))
      (cur : String) (curG : List String) (tok : Nat),
      (∀ s ∈ sents, s ≠ "") → (cur = "" ↔ curG = []) →
      ((chunkGo mt chunks cur curG tok sents).map Prod.snd).flatten =
        (chunks.map Prod.snd).flatten ++ curG ++ sents := by
  intro sents
  induction sents with
  | nil =>
    intro chunks cur curG tok _ hiff
    by_cases h : cur = ""
    · simp [chunkGo, h, hiff.mp h]
    · simp [chunkGo, h]
  | cons s rest ih =>
    intro chunks cur curG tok hne hiff
    have hs : s ≠ "" := hne s (by simp)
    have hrest : ∀ x ∈ rest, x ≠ "" := fun x hx => hne x (by simp [hx])
    by_cases hcond : mt < tok + wc s
    · have hiff' : s = "" ↔ ([s] : List String) = [] := by simp [hs]
      rw [chunkGo, if_pos hcond, ih _ _ _ _ hrest hiff']
      simp [List.append_assoc]
    · have hiff' : cur ++ " " ++ s = "" ↔ curG ++ [s] = [] := by
        simp [append_space_ne_empty cur s]
      rw [chunkGo, if_neg hcond, ih _ _ _ _ hrest hiff']
      simp [List.append_assoc]

theorem chunkGo_bound (mt : Nat) :
    ∀ (sents : List String) (chunks : List (String × List String))
      (cur : String) (curG : List String) (tok : Nat),
      tok = wc cur → chunkP mt (cur, curG) → (∀ p ∈ chunks, chunkP mt p) →
      ∀ p ∈ chunkGo mt chunks cur curG tok sents, chunkP mt p := by
  intro sents
  induction sents with
  | nil =>
    intro chunks cur curG tok _ hcur hchunks p hp
    by_cases h : cur = ""
    · rw [chunkGo, if_pos h] at hp
      exact hchunks p hp
    · rw [chunkGo, if_neg h] at hp
      rcases List.mem_append.mp hp with h1 | h1
      · exact hchunks p h1
      · simp at h1
        subst h1
        exact hcur
  | cons s rest ih =>
    intro chunks cur curG tok htok hcur hchunks p hp
    by_cases hcond : mt < tok + wc s
    · rw [chunkGo, if_pos hcond] at hp
      refine ih _ _ _ _ rfl ?_ ?_ p hp
      · by_cases hle : wc s ≤ mt
        · exact Or.inl hle
        · exact Or.inr ⟨s, rfl, rfl, Nat.lt_of_not_le hle⟩
      · intro q hq
        rcases List.mem_append.mp hq with h1 | h1
        · exact hchunks q h1
        · simp at h1
          subst h1
          exact hcur
    · rw [chunkGo, if_neg hcond] at hp
      refine ih _ _ _ _ ?_ ?_ hchunks p hp
      · rw [wc_append_space, htok]
      · refine Or.inl ?_
        show wc (cur ++ " " ++ s) ≤ mt
        rw [wc_append_space, ← htok]
        exact Nat.le_of_not_lt hcond

theorem chunkGo_greedy (mt : Nat) :
    ∀ (sents : List String) (chunks : List (String × List String))
      (cur : String) (curG : List String) (tok : Nat),
      (∀ s ∈ sents, s ≠ "") → (cur = "" ↔ curG = []) →
      (chunkGo mt chunks cur curG tok sents).map Prod.snd =
        chunks.map Prod.snd ++ greedyChunks mt curG tok sents := by
  intro sents
  induction sents with
  | nil =>
    intro chunks cur curG tok _ hiff
    by_cases h : cur = ""
    · simp [chunkGo, h, greedyChunks, hiff.mp h]
    · have : curG ≠ [] := fun hg => h (hiff.mpr hg)
      simp [chunkGo, h, greedyChunks, this]
  | cons s rest ih =>
    intro chunks cur curG tok hne hiff
    have hs : s ≠ "" := hne s (by simp)
    have hrest : ∀ x ∈ rest, x ≠ "" := fun x hx => hne x (by simp [hx])
    by_cases hcond : mt < tok + wc s
    · have hiff' : s = "" ↔ ([s] : List String) = [] := by simp [hs]
      rw [chunkGo, if_pos hcond, ih _ _ _ _ hrest hiff', greedyChunks, if_pos hcond]
      simp
    · have hiff' : cur ++ " " ++ s = "" ↔ curG ++ [s] = [] := by
        simp [append_space_ne_empty cur s]
      rw [chunkGo, if_neg hcond, ih _ _ _ _ hrest hiff', greedyChunks, if_neg hcond]

theorem chunkGo_prepend (mt : Nat) :
    ∀ (sents : List String) (chunks : List (String × List String))
      (cur : String) (curG : List String) (tok : Nat),
      ∃ tail, chunkGo mt chunks cur curG tok sents = chunks ++ tail := by
  intro sents
  induction sents with
  | nil =>
    intro chunks cur curG tok
    by_cases h : cur = ""
    · exact ⟨[], by simp [chunkGo, h]⟩
    · exact ⟨[(cur, curG)], by simp [chunkGo, h]⟩
  | cons s rest ih =>
    intro chunks cur curG tok
    by_cases hcond : mt < tok + wc s
    · obtain ⟨tail, htail⟩ := ih (chunks ++ [(cur, curG)]) s [s] (wc s)
      exact ⟨(cur, curG) :: tail, by rw [chunkGo, if_pos hcond, htail]; simp⟩
    · obtain ⟨tail, htail⟩ :=
        ih chunks (cur ++ " " ++ s) (curG ++ [s]) (tok + wc s)
      exact ⟨tail, by rw [chunkGo, if_neg hcond, htail]⟩

/-! ## Claims about the chunker -/

theorem wc_empty : wc "" = 0 := rfl

/-- C1: for every sentence list produced by `sent_tokenize` (sentences are
never empty strings) and every budget, concatenating the sentence sequences of
the chunks returned by `chunk_text` yields exactly the original sentence
sequence — nothing dropped, duplicated or reordered, chunks disjoint, and every
chunk boundary on a sentence boundary. -/
theorem chunk_text_preserves_sentences (sentences : List String) (max_tokens : Nat)
    (hne : ∀ s ∈ sentences, s ≠ "") :
    ((chunk_text_full sentences max_tokens).map Prod.snd).flatten = sentences := by
  simpa [chunk_text_full] using
    chunkGo_flatten max_tokens sentences [] "" [] 0 hne (by simp)

theorem chunk_text_preserves_sentences_witness :
    (∀ s ∈ ["This is one.", "Another sentence here.", "Third."], s ≠ "") ∧
    ((chunk_text_full ["This is one.", "Another sentence here.", "Third."] 5).map
        Prod.snd).flatten = ["This is one.", "Another sentence here.", "Third."] :=
  ⟨by decide, chunk_text_preserves_sentences _ 5 (by decide)⟩

/-- C2: every chunk returned by `chunk_text` has word count at most
`max_tokens`, except a chunk that consists of a single sentence (its sentence
sequence is `[s]` and the chunk string is that sentence verbatim, hence
untruncated) whose own word count exceeds the budget. -/
theorem chunk_text_word_bound (sentences : List String) (max_tokens : Nat) :
    ∀ c g, (c, g) ∈ chunk_text_full sentences max_tokens →
      wc c ≤ max_tokens ∨ ∃ s, g = [s] ∧ c = s ∧ max_tokens < wc s := by
  intro c g hmem
  exact chunkGo_bound max_tokens sentences [] "" [] 0 (by rw [wc_empty])
    (Or.inl (by rw [wc_empty]; exact Nat.zero_le _)) (by simp) (c, g) hmem

theorem chunk_text_word_bound_witness :
    wc "a b c" ≤ 1 ∨ ∃ s, ["a b c"] = [s] ∧ "a b c" = s ∧ 1 < wc s :=
  chunk_text_word_bound ["a b c"] 1 "a b c" ["a b c"] (by decide)

/-- C6: `chunk_text` computes exactly the spec's reference greedy algorithm:
the sentence sequences of its chunks equal the chunks of `greedyChunks`, which
accumulates while the budget is not exceeded and otherwise emits the running
chunk and restarts from the offending sentence. -/
theorem chunk_text_refines_greedy (sentences : List String) (max_tokens : Nat)
    (hne : ∀ s ∈ sentences, s ≠ "") :
    (chunk_text_full sentences max_tokens).map Prod.snd =
      greedyChunks max_tokens [] 0 sentences := by
  simpa [chunk_text_full] using
    chunkGo_greedy max_tokens sentences [] "" [] 0 hne (by simp)

theorem chunk_text_refines_greedy_witness :
    (∀ s ∈ ["one two three", "four five", "six"], s ≠ "") ∧
    (chunk_text_full ["one two three", "four five", "six"] 3).map Prod.snd =
      greedyChunks 3 [] 0 ["one two three", "four five", "six"] :=
  ⟨by decide, chunk_text_refines_greedy _ 3 (by decide)⟩

/-- C9: when the first sentence alone exceeds the budget, the first element of
the list returned by `chunk_text` is the empty string — the still-empty running
chunk is emitted before the oversized sentence. -/
theorem chunk_text_empty_first_chunk (s : String) (rest : List String) (max_tokens : Nat)
    (h : max_tokens < wc s) :
    (chunk_text (s :: rest) max_tokens).head? = some "" := by
  unfold chunk_text chunk_text_full
  rw [chunkGo, if_pos (by simpa using h)]
  obtain ⟨tail, htail⟩ := chunkGo_prepend max_tokens rest ([] ++ [("", [])]) s [s] (wc s)
  rw [htail]
  simp

theorem chunk_text_empty_first_chunk_witness :
    1 < wc "a b" ∧ (chunk_text ["a b"] 1).head? = some "" :=
  ⟨by decide, chunk_text_empty_first_chunk "a b" [] 1 (by decide)⟩

/-! ## Lemmas about the short summary -/

theorem str_data_eq (a b : String) (h : a.data = b.data) : a = b := by
  cases a
  cases b
  exact congrArg String.mk h

theorem data_empty : ("" : String).data = [] := rfl

theorem str_append_empty (s : String) : s ++ "" = s :=
  str_data_eq _ _ (by rw [String.data_append, data_empty, List.append_nil])

theorem str_empty_append (s : String) : "" ++ s = s :=
  str_data_eq _ _ (by rw [String.data_append, data_empty, List.nil_append])

theorem str_append_assoc (a b c : String) : a ++ b ++ c = a ++ (b ++ c) :=
  str_data_eq _ _ (by simp [String.data_append])

theorem wc_joinSp : ∀ l : List String, wc (joinSp l) = wcSum l
  | [] => by simp [joinSp, wcSum, wc_empty]
  | s :: rest => by
    rw [joinSp, wc_append_space, wc_joinSp rest]
    simp [wcSum]

theorem shortGo_spec (max_length : Nat) :
    ∀ (l : List String) (acc : String) (sel : List String) (len : Nat),
      len ≤ max_length →
      ∃ taken dropped,
        l = taken ++ dropped ∧
        shortGo max_length acc sel len l = (acc ++ joinSp taken, sel ++ taken) ∧
        len + wcSum taken ≤ max_length ∧
        (dropped = [] ∨ ∃ s ds, dropped = s :: ds ∧
          max_length < len + wcSum taken + wc s) := by
  intro l
  induction l with
  | nil =>
    intro acc sel len hlen
    exact ⟨[], [], rfl, by simp [shortGo, joinSp, str_append_empty],
      by simpa [wcSum], Or.inl rfl⟩
  | cons s rest ih =>
    intro acc sel len hlen
    by_cases h : len + wc s ≤ max_length
    · obtain ⟨taken, dropped, hsplit, hres, hbound, hstop⟩ :=
        ih (acc ++ s ++ " ") (sel ++ [s]) (len + wc s) h
      refine ⟨s :: taken, dropped, by simp [hsplit], ?_, ?_, ?_⟩
      · rw [shortGo, if_pos h, hres, joinSp]
        simp [str_append_assoc]
      · simpa [wcSum, Nat.add_assoc] using hbound
      · rcases hstop with h1 | ⟨t, ds, hd, hgt⟩
        · exact Or.inl h1
        · exact Or.inr ⟨t, ds, hd, by simpa [wcSum, Nat.add_assoc] using hgt⟩
    · refine ⟨[], s :: rest, rfl, ?_, by simpa [wcSum],
        Or.inr ⟨s, rest, rfl, by simpa [wcSum] using Nat.lt_of_not_le h⟩⟩
      rw [shortGo, if_neg h]
      simp [joinSp, str_append_empty]

/-! ## Claims about the short summary -/

/-- C4: every sentence included in the result of `generate_short_summary`
matches a keyword (case-insensitive substring, via `kwMatch`), and the included
sentences form a sublist of the input — original order, no non-matching
sentence ever included. -/
theorem generate_short_summary_only_keywords (sentences : List String) (max_length : Nat) :
    List.Sublist (short_summary_full sentences max_length).2 sentences ∧
    ∀ s ∈ (short_summary_full sentences max_length).2, kwMatch s = true := by
  obtain ⟨taken, dropped, hsplit, hres, -, -⟩ :=
    shortGo_spec max_length (ev_sentences sentences) "" [] 0 (Nat.zero_le _)
  have hsel : (short_summary_full sentences max_length).2 = taken := by
    simp [short_summary_full, hres]
  constructor
  · rw [hsel]
    have h1 : List.Sublist taken (ev_sentences sentences) := by
      rw [hsplit]
      exact List.sublist_append_left taken dropped
    exact h1.trans (List.filter_sublist sentences)
  · intro s hs
    rw [hsel] at hs
    have hmem : s ∈ ev_sentences sentences := by
      rw [hsplit]
      exact List.mem_append_left dropped hs
    exact (List.mem_filter.mp hmem).2

theorem generate_short_summary_only_keywords_witness :
    List.Sublist (short_summary_full ["lithium mining.", "none."] 300).2
      ["lithium mining.", "none."] ∧
    kwMatch "lithium mining." = true :=
  ⟨(generate_short_summary_only_keywords ["lithium mining.", "none."] 300).1,
   (generate_short_summary_only_keywords ["lithium mining.", "none."] 300).2
     "lithium mining." (by decide)⟩

/-- C5: the string returned by `generate_short_summary` has total word count at
most `max_length`, and it is exactly the concatenation of the whole included
sentences (each followed by one space, then stripped) — no sentence is ever
partially included. -/
theorem generate_short_summary_word_bound (sentences : List String) (max_length : Nat) :
    wc (generate_short_summary sentences max_length) ≤ max_length ∧
    generate_short_summary sentences max_length =
      pystripS (joinSp (short_summary_full sentences max_length).2) := by
  obtain ⟨taken, dropped, hsplit, hres, hbound, -⟩ :=
    shortGo_spec max_length (ev_sentences sentences) "" [] 0 (Nat.zero_le _)
  have hfull : short_summary_full sentences max_length =
      (pystripS (joinSp taken), taken) := by
    simp [short_summary_full, hres, str_empty_append]
  have hgen : generate_short_summary sentences max_length = pystripS (joinSp taken) := by
    rw [generate_short_summary, hfull]
  constructor
  · rw [hgen, wc_pystripS, wc_joinSp]
    simpa using hbound
  · rw [hgen, hfull]

/-- C10: the included sentences are a maximal-by-stopping prefix of the
keyword-matching subsequence: either everything matched was included, or the
loop broke at the first matching sentence that would push past the budget, and
nothing after it was included even if it would fit. -/
theorem generate_short_summary_stops_at_budget (sentences : List String) (max_length : Nat) :
    ∃ dropped, ev_sentences sentences =
        (short_summary_full sentences max_length).2 ++ dropped ∧
      (dropped = [] ∨ ∃ s ds, dropped = s :: ds ∧
        max_length < wcSum (short_summary_full sentences max_length).2 + wc s) := by
  obtain ⟨taken, dropped, hsplit, hres, -, hstop⟩ :=
    shortGo_spec max_length (ev_sentences sentences) "" [] 0 (Nat.zero_le _)
  have hsel : (short_summary_full sentences max_length).2 = taken := by
    simp [short_summary_full, hres]
  refine ⟨dropped, by rw [hsel, ← hsplit], ?_⟩
  rcases hstop with h1 | ⟨s, ds, hd, hgt⟩
  · exact Or.inl h1
  · exact Or.inr ⟨s, ds, hd, by rw [hsel]; simpa using hgt⟩

/-! ## Claim about the summarization client -/

/-- C7: `summarize_with_groq` returns the fixed placeholder string whenever the
API call raises (`Except.error`), and the stripped model output on success —
it never propagates the failure. -/
theorem summarize_with_groq_error_policy (call : String → Except String String)
    (text context : String) :
    (∀ e, call (mkPrompt text context) = Except.error e →
      summarize_with_groq call text context = "Failed to summarize due to API error.") ∧
    (∀ content, call (mkPrompt text context) = Except.ok content →
      summarize_with_groq call text context = pystripS content) := by
  constructor
  · intro e he
    rw [summarize_with_groq, he]
  · intro content hc
    rw [summarize_with_groq, hc]

theorem summarize_with_groq_error_policy_witness :
    summarize_with_groq (fun _ => Except.error "connection failed") "some chunk" "general" =
      "Failed to summarize due to API error." :=
  (summarize_with_groq_error_policy (fun _ => Except.error "connection failed")
    "some chunk" "general").1 "connection failed" rfl

/-! ## Lemmas about the URL scanner -/

theorem grabURL_decomp (scheme r2 m rest : List Char)
    (h : grabURL scheme r2 = some (m, rest)) :
    m ++ rest = scheme ++ r2 ∧ ∃ core,
      core ≠ [] ∧ (∀ c ∈ core, c.isWhitespace = false) ∧ m = scheme ++ core := by
  simp only [grabURL] at h
  by_cases hc : r2.takeWhile (fun c => !c.isWhitespace) = []
  · rw [if_pos hc] at h
    exact absurd h (by simp)
  · rw [if_neg hc] at h
    have hm : m = scheme ++ r2.takeWhile (fun c => !c.isWhitespace) := by
      injection h with h'
      exact (congrArg Prod.fst h').symm
    have hr : rest = r2.dropWhile (fun c => !c.isWhitespace) := by
      injection h with h'
      exact (congrArg Prod.snd h').symm
    refine ⟨?_, r2.takeWhile (fun c => !c.isWhitespace), hc, ?_, hm⟩
    · rw [hm, hr, List.append_assoc, List.takeWhile_append_dropWhile]
    · intro c hcmem
      have := List.mem_takeWhile_imp hcmem
      simpa using this

theorem tryURL_decomp (l m rest : List Char) (h : tryURL l = some (m, rest)) :
    l = m ++ rest ∧ m ≠ [] ∧ ∃ core,
      core ≠ [] ∧ (∀ c ∈ core, c.isWhitespace = false) ∧
      (m = "http://".data ++ core ∨ m = "https://".data ++ core) := by
  unfold tryURL at h
  split at h
  case h_2 => exact absurd h (by simp)
  case h_1 =>
    split at h
    case h_3 => exact absurd h (by simp)
    case h_1 =>
      obtain ⟨hsum, core, hcne, hcws, hm⟩ := grabURL_decomp _ _ _ _ h
      refine ⟨?_, ?_, core, hcne, hcws, Or.inr ?_⟩
      · rw [hsum]
        rfl
      · rw [hm]
        simp [hcne]
      · rw [hm]
    case h_2 =>
      obtain ⟨hsum, core, hcne, hcws, hm⟩ := grabURL_decomp _ _ _ _ h
      refine ⟨?_, ?_, core, hcne, hcws, Or.inl ?_⟩
      · rw [hsum]
        rfl
      · rw [hm]
        simp [hcne]
      · rw [hm]

theorem scanok_cons (c : Char) (cs : List Char) (us : List (List Char))
    (hnone : tryURL (c :: cs) = none) (h : ScanOK cs us) : ScanOK (c :: cs) us := by
  cases us with
  | nil =>
    intro a b hab
    cases a with
    | nil =>
      simp only [List.nil_append] at hab
      rw [← hab]
      exact hnone
    | cons x a' =>
      rw [List.cons_append] at hab
      injection hab with h1 h2
      exact h a' b h2
  | cons u us =>
    obtain ⟨a, b, hab, hgap, hrest⟩ := h
    refine ⟨c :: a, b, by simp [hab], ?_, hrest⟩
    intro a1 a2 ha ha2
    cases a1 with
    | nil =>
      simp only [List.nil_append] at ha
      have hform : a2 ++ u ++ b = c :: cs := by
        rw [← ha]
        simp [hab]
      rw [hform]
      exact hnone
    | cons x a1' =>
      rw [List.cons_append] at ha
      injection ha with hx ha'
      exact hgap a1' a2 ha' ha2

theorem scan_scanok : ∀ (fuel : Nat) (l : List Char), l.length ≤ fuel →
    ScanOK l (scanURLsF fuel l) := by
  intro fuel
  induction fuel with
  | zero =>
    intro l hl
    have hnil : l = [] := List.eq_nil_of_length_eq_zero (Nat.le_zero.mp hl)
    subst hnil
    intro a b hab
    have hb : b = [] := (List.append_eq_nil.mp hab.symm).2
    rw [hb]
    rfl
  | succ fuel ih =>
    intro l hl
    cases l with
    | nil =>
      intro a b hab
      have hb : b = [] := (List.append_eq_nil.mp hab.symm).2
      rw [hb]
      rfl
    | cons c cs =>
      cases hm : tryURL (c :: cs) with
      | none =>
        have hstep : scanURLsF (fuel + 1) (c :: cs) = scanURLsF fuel cs := by
          simp only [scanURLsF, hm]
        rw [hstep]
        exact scanok_cons c cs _ hm (ih cs (Nat.le_of_succ_le_succ (by simpa using hl)))
      | some p =>
        obtain ⟨m, rest⟩ := p
        obtain ⟨hdec, hmne, -⟩ := tryURL_decomp _ _ _ hm
        have hstep : scanURLsF (fuel + 1) (c :: cs) = m :: scanURLsF fuel rest := by
          simp only [scanURLsF, hm]
        rw [hstep]
        refine ⟨[], rest, by simpa using hdec, ?_, ?_⟩
        · intro a1 a2 ha ha2
          exact absurd (List.append_eq_nil.mp ha.symm).2 ha2
        · have hm1 : 1 ≤ m.length := by
            cases m with
            | nil => exact absurd rfl hmne
            | cons x xs => simp
          have hsum : cs.length + 1 = m.length + rest.length := by
            have := congrArg List.length hdec
            simpa [List.length_append] using this
          have hlcs : cs.length + 1 ≤ fuel + 1 := by simpa using hl
          exact ih rest (by omega)

theorem scan_form : ∀ (fuel : Nat) (l u : List Char), u ∈ scanURLsF fuel l →
    ∃ core, core ≠ [] ∧ (∀ c ∈ core, c.isWhitespace = false) ∧
      (u = "http://".data ++ core ∨ u = "https://".data ++ core) := by
  intro fuel
  induction fuel with
  | zero =>
    intro l u hu
    simp [scanURLsF] at hu
  | succ fuel ih =>
    intro l u hu
    cases l with
    | nil => simp [scanURLsF] at hu
    | cons c cs =>
      cases hm : tryURL (c :: cs) with
      | none =>
        have hstep : scanURLsF (fuel + 1) (c :: cs) = scanURLsF fuel cs := by
          simp only [scanURLsF, hm]
        rw [hstep] at hu
        exact ih cs u hu
      | some p =>
        obtain ⟨m, rest⟩ := p
        have hstep : scanURLsF (fuel + 1) (c :: cs) = m :: scanURLsF fuel rest := by
          simp only [scanURLsF, hm]
        rw [hstep] at hu
        rcases List.mem_cons.mp hu with h1 | h1
        · obtain ⟨-, -, core, hc1, hc2, hc3⟩ := tryURL_decomp _ _ _ hm
          exact ⟨core, hc1, hc2, h1 ▸ hc3⟩
        · exact ih rest u h1

/-! ## Claims about extraction -/

/-- C8: the URL list of `extract_links_and_data` is a left-to-right,
non-overlapping decomposition of the input: every reported URL occurs verbatim
in the text, in order of occurrence and once per reported occurrence, no URL
match of the regex starts in any gap between them (`ScanOK`), and every
reported element really matches `https?://[^\s]+`. -/
theorem extract_urls_verbatim (text : String) :
    ScanOK text.data ((extract_urls text).map String.data) ∧
    ∀ u ∈ extract_urls text, ∃ core,
      core ≠ [] ∧ (∀ c ∈ core, c.isWhitespace = false) ∧
      (u.data = "http://".data ++ core ∨ u.data = "https://".data ++ core) := by
  constructor
  · have hmm : (extract_urls text).map String.data =
        scanURLsF text.data.length text.data := by
      rw [extract_urls, List.map_map]
      have hid : (String.data ∘ String.mk) = id := rfl
      rw [hid, List.map_id]
    rw [hmm]
    exact scan_scanok text.data.length text.data (Nat.le_refl _)
  · intro u hu
    obtain ⟨l, hl, hlu⟩ := List.mem_map.mp hu
    obtain ⟨core, h1, h2, h3⟩ := scan_form _ _ l hl
    refine ⟨core, h1, h2, ?_⟩
    rw [← hlu]
    exact h3

theorem extract_urls_verbatim_witness :
    ∃ core, core ≠ [] ∧ (∀ c ∈ core, c.isWhitespace = false) ∧
      (("https://x.y" : String).data = "http://".data ++ core ∨
       ("https://x.y" : String).data = "https://".data ++ core) :=
  (extract_urls_verbatim "see https://x.y now").2 "https://x.y" (by decide)

/-- C3: the claim fails on the code.  Because the number pattern
`\b\d+(\.\d+)?\b` contains one capture group, Python's `re.findall` returns the
capture of that group, not the matched number token: an integer match yields
the empty string and a decimal match yields only its fractional part.  The
entry count (one per match) is as claimed, but the paired value is not the
number token: `"42"` produces the entry `" -> ..."` and `"3.14"` produces
`".14 -> ..."`. -/
theorem extract_data_points_group_capture :
    extract_data_points ["It costs 42 dollars."] = [" -> It costs 42 dollars."] ∧
    extract_data_points ["Pi is 3.14 exactly."] = [".14 -> Pi is 3.14 exactly."] :=
  ⟨by decide, by decide⟩
